import Mathlib

/-! Shallow embedding of the tailwind-lint fix-convergence core: the
line-offset model of text documents, the quickfix selector, the text-edit
applier, the bounded fix loop, the batch-runner validation wrapper and the
per-file processing step, translated from the TypeScript sources
(code-actions.ts, linter.ts, constants.ts). External collaborators (the
tailwind language service, the file system, node path helpers) are modelled
as explicit function parameters and explicit inputs; observable effects
(writes to disk, warnings, oracle invocations) are returned as data. -/

/-! String constants of the sources. -/

/-- Kind tag of a quickfix action. -/
def quickfixKindStr : String := "quickfix"

/-- Dotted sub-kind marker: quickfix followed by a dot. -/
def quickfixDotStr : String := "quickfix."

/-- Default diagnostic source tag. -/
def tailwindcssTag : String := "tailwindcss"

/-- Scheme put before the file path to form the document uri. -/
def fileScheme : String := "file://"

/-- Fallback language id of getLanguageId. -/
def htmlLang : String := "html"

/-- First crash-signature substring matched by the error handlers. -/
def cannotReadSig : String := "Cannot read"

/-- Second crash-signature substring matched by the error handlers. -/
def undefinedSig : String := "undefined"

/-- Message thrown when the engine state object is missing. -/
def stateNotInitMsg : String := "State is not initialized"

/-- Message thrown when a v4 state lacks a design system. -/
def designSystemMsg : String :=
  "Design system not initialized for Tailwind v4. This might indicate a configuration issue."

/-- Message thrown when a v3 state lacks tailwind modules. -/
def modulesMsg : String :=
  "Tailwind modules not initialized for Tailwind v3. This might indicate a configuration issue."

/-- Text put before the file path when a validation error is re-raised. -/
def failedValidateMsg : String := "Failed to validate document "

/-- Separator between the file path and the wrapped message. -/
def colonSep : String := ": "

/-- Iteration bound of the fix loop (constants.ts, MAX_FIX_ITERATIONS). -/
def MAX_FIX_ITERATIONS : Nat := 10

/-- Extension-to-language map of constants.ts (LANGUAGE_MAP). -/
def LANGUAGE_MAP : List (String × String) :=
  [(r".astro", r"astro"), (r".css", r"css"), (r".erb", r"erb"),
   (r".hbs", r"handlebars"), (r".htm", r"html"), (r".html", r"html"),
   (r".js", r"javascript"), (r".jsx", r"javascriptreact"), (r".less", r"less"),
   (r".md", r"markdown"), (r".mdx", r"mdx"), (r".php", r"php"),
   (r".sass", r"sass"), (r".scss", r"scss"), (r".svelte", r"svelte"),
   (r".ts", r"typescript"), (r".tsx", r"typescriptreact"), (r".twig", r"twig"),
   (r".vue", r"vue")]

/-! Data model. -/

/-- A zero-based line and character pair of the language-server protocol. -/
structure Position where
  line : Nat
  character : Nat
deriving DecidableEq

/-- A position range; the field named end in the sources is stop here. -/
structure LspRange where
  start : Position
  stop : Position
deriving DecidableEq

/-- One replacement: a range plus replacement text. -/
structure TextEdit where
  range : LspRange
  newText : List Char
deriving DecidableEq

/-- A problem report produced by the validation engine. -/
structure Diagnostic where
  range : LspRange
  severity : Option Nat
  message : String
  code : Option String
  source : Option String
deriving DecidableEq

/-- A diagnostic as serialized at the batch-runner boundary. -/
structure SerializedDiagnostic where
  range : LspRange
  severity : Nat
  message : String
  code : Option String
  source : Option String
deriving DecidableEq

/-- The edit payload of a code action: changes keyed by document uri. -/
structure WorkspaceEdit where
  changes : Option (List (String × List TextEdit))
deriving DecidableEq

/-- A candidate code action returned by the engine. -/
structure CodeAction where
  kind : Option String
  edit : Option WorkspaceEdit
deriving DecidableEq

/-- The request sent to the engine by the quickfix selector. -/
structure CodeActionParams where
  textDocumentUri : String
  range : LspRange
  contextDiagnostics : List Diagnostic
deriving DecidableEq

/-- An immutable snapshot of file content at a version number. -/
structure TextDocument where
  uri : String
  languageId : String
  version : Nat
  content : List Char
deriving DecidableEq

/-- The external validation and code-action engine, treated as an oracle. -/
structure Engine where
  doValidate : TextDocument → List Diagnostic
  doCodeActions : CodeActionParams → TextDocument → List CodeAction

/-! The text-document line-offset model (vscode-languageserver-textdocument):
line offsets are the offsets just after every line break, with offset zero
put first; a carriage return directly followed by a line feed counts as one
break. -/

/-- Offsets just after every line break of the text, the scan starting at
offset i (computeLineOffsets of the textdocument library, tail part). -/
def computeLineOffsetsAux : List Char → Nat → List Nat
  | [], _ => []
  | '\r' :: '\n' :: rest, i => (i + 2) :: computeLineOffsetsAux rest (i + 2)
  | '\r' :: rest, i => (i + 1) :: computeLineOffsetsAux rest (i + 1)
  | '\n' :: rest, i => (i + 1) :: computeLineOffsetsAux rest (i + 1)
  | _ :: rest, i => computeLineOffsetsAux rest (i + 1)

/-- All line start offsets of the text, zero first. -/
def computeLineOffsets (text : List Char) : List Nat :=
  0 :: computeLineOffsetsAux text 0

/-- Number of lines of the document. -/
def TextDocument.lineCount (document : TextDocument) : Nat :=
  (computeLineOffsets document.content).length

/-- Absolute character offset of a position, clamped to the document as the
textdocument library does: a line at or past the line count maps to the end
of the content, and a character is clamped to the next line start. -/
def TextDocument.offsetAt (document : TextDocument) (position : Position) : Nat :=
  let lineOffsets := computeLineOffsets document.content
  if h : lineOffsets.length ≤ position.line then document.content.length
  else
    let lineStart := lineOffsets.get ⟨position.line, Nat.lt_of_not_le h⟩
    let nextLineStart :=
      if h2 : position.line + 1 < lineOffsets.length then lineOffsets.get ⟨position.line + 1, h2⟩
      else document.content.length
    max (min (lineStart + position.character) nextLineStart) lineStart

/-- Constructor mirroring TextDocument.create of the library. -/
def TextDocument.create (uri languageId : String) (version : Nat) (content : List Char) :
    TextDocument :=
  { uri := uri, languageId := languageId, version := version, content := content }

/-! Helpers of the sources. -/

/-- Suffix of the character list starting at its last dot, when a dot occurs. -/
def lastDotSuffix : List Char → Option (List Char)
  | [] => none
  | c :: rest =>
    match lastDotSuffix rest with
    | some s => some s
    | none => if c = '.' then some (c :: rest) else none

/-- Language id from the file extension (constants.ts getLanguageId): the
lowercased suffix from the last dot, looked up in LANGUAGE_MAP, the html
fallback otherwise; a path with no dot lowercases whole and misses the map. -/
def getLanguageId (filePath : String) : String :=
  let ext := String.mk
    ((match lastDotSuffix filePath.data with
      | some s => s
      | none => filePath.data).map Char.toLower)
  match List.lookup ext LANGUAGE_MAP with
  | some languageId => languageId
  | none => htmlLang

/-- The javascript a-or-else-b on an optional string: a missing or empty
string falls back to the default. -/
def jsOrString (v : Option String) (dflt : String) : String :=
  match v with
  | none => dflt
  | some s => if s = "" then dflt else s

/-- The javascript a-or-else-b on an optional number: missing or zero falls
back to the default. -/
def jsOrNat (v : Option Nat) (dflt : Nat) : Nat :=
  match v with
  | none => dflt
  | some n => if n = 0 then dflt else n

/-- serializeDiagnostics of linter.ts: severity defaulted to two, the rest
copied. -/
def serializeDiagnostics (diagnostics : List Diagnostic) : List SerializedDiagnostic :=
  diagnostics.map fun diagnostic =>
    { range := diagnostic.range
      severity := jsOrNat diagnostic.severity 2
      message := diagnostic.message
      code := diagnostic.code
      source := diagnostic.source }

/-- Whether the first character list starts the second. -/
def isPrefixList : List Char → List Char → Bool
  | [], _ => true
  | _ :: _, [] => false
  | a :: as, b :: bs => a == b && isPrefixList as bs

/-- Whether the needle occurs inside the haystack (javascript includes). -/
def containsSub (needle : List Char) : List Char → Bool
  | [] => isPrefixList needle []
  | c :: rest => isPrefixList needle (c :: rest) || containsSub needle rest

/-- True when the message holds a crash signature substring. -/
def crashSignature (message : String) : Bool :=
  containsSub cannotReadSig.data message.data || containsSub undefinedSig.data message.data

/-! The quickfix selector (code-actions.ts getQuickfixes). -/

/-- An action counts as a quickfix when its kind is exactly the quickfix tag
or starts with the dotted quickfix marker. -/
def isQuickfixKind (action : CodeAction) : Bool :=
  match action.kind with
  | none => false
  | some k => k == quickfixKindStr || k.startsWith quickfixDotStr

/-- The code-action request built by getQuickfixes: full-document range and
a context holding every current diagnostic with its source defaulted. -/
def codeActionParamsFor (document : TextDocument) (uri : String)
    (diagnostics : List Diagnostic) : CodeActionParams :=
  { textDocumentUri := uri
    range :=
      { start := { line := 0, character := 0 }
        stop := { line := document.lineCount, character := 0 } }
    contextDiagnostics := diagnostics.map fun diag =>
      { range := diag.range
        severity := diag.severity
        message := diag.message
        code := diag.code
        source := some (jsOrString diag.source tailwindcssTag) } }

/-- getQuickfixes: request code actions and keep those of quickfix kind. -/
def getQuickfixes (engine : Engine) (document : TextDocument) (uri : String)
    (diagnostics : List Diagnostic) : List CodeAction :=
  (engine.doCodeActions (codeActionParamsFor document uri diagnostics) document).filter
    isQuickfixKind

/-! The text-edit applier (code-actions.ts applyFirstQuickfix). -/

/-- Order of the sort comparator of applyFirstQuickfix: a sorts at or before
b when the start of b is at or before the start of a, line first then
character; descending start order. -/
def editBefore (a b : TextEdit) : Prop :=
  b.range.start.line < a.range.start.line ∨
    (b.range.start.line = a.range.start.line ∧
      b.range.start.character ≤ a.range.start.character)

instance : DecidableRel editBefore := fun a b => by
  unfold editBefore; infer_instance

instance : IsTotal TextEdit editBefore :=
  ⟨by intro a b; unfold editBefore; omega⟩

instance : IsTrans TextEdit editBefore :=
  ⟨by intro a b c; unfold editBefore; omega⟩

/-- One string splice: content up to the start offset, the new text, then
the content from the end offset on. -/
def splice (content : List Char) (startOffset endOffset : Nat) (newText : List Char) :
    List Char :=
  content.take startOffset ++ newText ++ content.drop endOffset

/-- Apply one edit by splicing at offsets computed against the fixed
document snapshot. -/
def applyOneEdit (document : TextDocument) (content : List Char) (edit : TextEdit) :
    List Char :=
  splice content (document.offsetAt edit.range.start) (document.offsetAt edit.range.stop)
    edit.newText

/-- Core of applyFirstQuickfix: sort the edits descending by start position
and splice them one after the other, all offsets against the one fixed
document snapshot. -/
def applyEditsToContent (document : TextDocument) (edits : List TextEdit)
    (content : List Char) : List Char :=
  (List.insertionSort editBefore edits).foldl (applyOneEdit document) content

/-- The changes entry of the action for the uri, when the edit payload and
the entry both exist. -/
def lookupChanges (action : CodeAction) (uri : String) : Option (List TextEdit) :=
  match action.edit with
  | none => none
  | some e =>
    match e.changes with
    | none => none
    | some changes => List.lookup uri changes

/-- The edits the action yields for the uri: the entry when present, the
empty list otherwise. -/
def yieldedEdits (action : CodeAction) (uri : String) : List TextEdit :=
  (lookupChanges action uri).getD []

/-- applyFirstQuickfix: null when the action has no changes entry for the
uri, the spliced content otherwise (an empty entry is applied as zero
edits). -/
def applyFirstQuickfix (action : CodeAction) (uri : String) (document : TextDocument)
    (content : List Char) : Option (List Char) :=
  match lookupChanges action uri with
  | none => none
  | some edits => some (applyEditsToContent document edits content)

/-! The fix-convergence loop (code-actions.ts applyCodeActions). -/

/-- State at loop exit: the last document and content, fixes applied, the
iteration counter value, and how often each oracle was invoked. -/
structure LoopOut where
  document : TextDocument
  content : List Char
  totalFixed : Nat
  iteration : Nat
  validateCalls : Nat
  codeActionCalls : Nat
deriving DecidableEq

/-- One run of the bounded for loop of applyCodeActions, fuel counting the
iterations left before the bound: validate, select quickfixes, apply the
first one, bump the document version, repeat; any break keeps the counters
as they stand. -/
def fixLoopAux (engine : Engine) (uri languageId : String) :
    Nat → TextDocument → List Char → Nat → Nat → Nat → Nat → LoopOut
  | 0, doc, content, totalFixed, iteration, vCalls, cCalls =>
    ⟨doc, content, totalFixed, iteration, vCalls, cCalls⟩
  | fuel + 1, doc, content, totalFixed, iteration, vCalls, cCalls =>
    match engine.doValidate doc with
    | [] => ⟨doc, content, totalFixed, iteration, vCalls + 1, cCalls⟩
    | d :: ds =>
      match getQuickfixes engine doc uri (d :: ds) with
      | [] => ⟨doc, content, totalFixed, iteration, vCalls + 1, cCalls + 1⟩
      | action :: _ =>
        match applyFirstQuickfix action uri doc content with
        | none => ⟨doc, content, totalFixed, iteration, vCalls + 1, cCalls + 1⟩
        | some newContent =>
          fixLoopAux engine uri languageId fuel
            (TextDocument.create uri languageId (doc.version + 1) newContent)
            newContent (totalFixed + 1) (iteration + 1) (vCalls + 1) (cCalls + 1)

/-- Result record of applyCodeActions; maxIterationsReached is only set
when the bound was hit. -/
structure ApplyCodeActionsResult where
  content : List Char
  changed : Bool
  fixedCount : Nat
  maxIterationsReached : Option Bool
deriving DecidableEq

/-- Observable effects of one applyCodeActions run: oracle invocations, the
exit value of the iteration counter, the version of the last document, and
whether the bound warning fired. -/
structure ApplyTrace where
  validateCalls : Nat
  codeActionCalls : Nat
  iterations : Nat
  finalVersion : Nat
  warned : Bool
deriving DecidableEq

/-- applyCodeActions: empty initial diagnostics short-circuit; otherwise
run the bounded loop from a fresh version-one document, re-validate once
more at the bound, and report whether the content changed. The trace of a
short-circuited run records zero oracle calls and version one, the version
a fresh document would carry. -/
def applyCodeActions (engine : Engine) (filePath : String) (content : List Char)
    (diagnostics : List SerializedDiagnostic) : ApplyCodeActionsResult × ApplyTrace :=
  match diagnostics with
  | [] => (⟨content, false, 0, none⟩, ⟨0, 0, 0, 1, false⟩)
  | _ :: _ =>
    let languageId := getLanguageId filePath
    let uri := fileScheme ++ filePath
    let lr := fixLoopAux engine uri languageId MAX_FIX_ITERATIONS
      (TextDocument.create uri languageId 1 content) content 0 0 0 0
    if lr.iteration = MAX_FIX_ITERATIONS then
      let remaining := engine.doValidate lr.document
      (⟨lr.content, lr.content != content, lr.totalFixed, some true⟩,
       ⟨lr.validateCalls + 1, lr.codeActionCalls, lr.iteration, lr.document.version,
        !remaining.isEmpty⟩)
    else
      (⟨lr.content, lr.content != content, lr.totalFixed, none⟩,
       ⟨lr.validateCalls, lr.codeActionCalls, lr.iteration, lr.document.version, false⟩)

/-! The batch-runner validation wrapper (linter.ts validateDocument). -/

/-- The engine state fields the defensive checks read: whether the state is
v4, whether a design system is present, whether the tailwindcss module is
present. -/
structure LintState where
  v4 : Bool
  designSystem : Bool
  modulesTailwindcss : Bool
deriving DecidableEq

/-- Body of the try block of validateDocument: the defensive state checks,
then one validation call on a fresh version-one document, serialized. -/
def validateDocumentBody (validate : TextDocument → Except String (List Diagnostic))
    (state : Option LintState) (filePath : String) (content : List Char) :
    Except String (List SerializedDiagnostic) :=
  match state with
  | none => .error stateNotInitMsg
  | some st =>
    if st.v4 && !st.designSystem then .error designSystemMsg
    else if !st.v4 && !st.modulesTailwindcss then .error modulesMsg
    else
      match validate
        (TextDocument.create (fileScheme ++ filePath) (getLanguageId filePath) 1 content) with
      | .error m => .error m
      | .ok diagnostics => .ok (serializeDiagnostics diagnostics)

/-- validateDocument: the body, with its catch block. A crash-signature
message is swallowed into zero diagnostics with a warning (the boolean);
any other message is re-raised wrapped with the file path. -/
def validateDocument (validate : TextDocument → Except String (List Diagnostic))
    (state : Option LintState) (filePath : String) (content : List Char) :
    Except String (List SerializedDiagnostic × Bool) :=
  match validateDocumentBody validate state filePath content with
  | .ok d => .ok (d, false)
  | .error m =>
    if crashSignature m then .ok ([], true)
    else .error (failedValidateMsg ++ filePath ++ colonSep ++ m)

/-! Per-file processing (linter.ts processFile). -/

/-- Per-file result record of the batch runner. -/
structure LintFileResult where
  path : String
  diagnostics : List SerializedDiagnostic
  fixed : Bool
  fixedCount : Nat
deriving DecidableEq

/-- What one processFile run produces: its result or the propagated error,
the disk writes it performed in order, and how often it invoked the
validation wrapper. -/
structure ProcessFileOut where
  result : Except String (Option LintFileResult)
  writes : List (String × List Char)
  validateDocCalls : Nat

/-- processFile: skip a missing file; validate; when fixing and diagnostics
exist, run the convergence loop, and only when its result changed write the
file once and re-validate; report the final diagnostics. -/
def processFile (validate : TextDocument → Except String (List Diagnostic))
    (engine : Engine) (state : Option LintState) (absolutePath relPath : String)
    (fix : Bool) (fileOnDisk : Option (List Char)) : ProcessFileOut :=
  match fileOnDisk with
  | none => ⟨.ok none, [], 0⟩
  | some diskContent =>
    match validateDocument validate state absolutePath diskContent with
    | .error m => ⟨.error m, [], 1⟩
    | .ok (diagnostics, _) =>
      if fix && !diagnostics.isEmpty then
        let fixResult := (applyCodeActions engine absolutePath diskContent diagnostics).1
        if fixResult.changed then
          match validateDocument validate state absolutePath fixResult.content with
          | .error m => ⟨.error m, [(absolutePath, fixResult.content)], 2⟩
          | .ok (diagnostics2, _) =>
            ⟨.ok (some ⟨relPath, diagnostics2, true, fixResult.fixedCount⟩),
             [(absolutePath, fixResult.content)], 2⟩
        else ⟨.ok (some ⟨relPath, diagnostics, false, 0⟩), [], 1⟩
      else ⟨.ok (some ⟨relPath, diagnostics, false, 0⟩), [], 1⟩

/-! Reference semantics for the edit applier, for the equivalence claim. -/

/-- Start offset of an edit against the fixed document snapshot. -/
def editStartOff (document : TextDocument) (edit : TextEdit) : Nat :=
  document.offsetAt edit.range.start

/-- End offset of an edit against the fixed document snapshot. -/
def editEndOff (document : TextDocument) (edit : TextEdit) : Nat :=
  document.offsetAt edit.range.stop

/-- Select an edit of maximal start offset, returning it with the others;
of several maxima the earliest in the list is taken. -/
def selectMaxOffset (document : TextDocument) :
    List TextEdit → Option (TextEdit × List TextEdit)
  | [] => none
  | e :: rest =>
    match selectMaxOffset document rest with
    | none => some (e, rest)
    | some (m, others) =>
      if editStartOff document e < editStartOff document m then some (m, e :: others)
      else some (e, rest)

/-- The edits in the order a backward pass applies them: repeatedly the
not-yet-applied edit furthest toward the end of the document. -/
def backwardOrder (document : TextDocument) : Nat → List TextEdit → List TextEdit
  | 0, _ => []
  | fuel + 1, edits =>
    match selectMaxOffset document edits with
    | none => []
    | some (m, rest) => m :: backwardOrder document fuel rest

/-- Modelled from the spec: applying the edits one at a time in order from
the end of the document backward, each at offsets computed against the one
fixed original snapshot. -/
def specBackwardApply (document : TextDocument) (edits : List TextEdit)
    (content : List Char) : List Char :=
  (backwardOrder document edits.length edits).foldl (applyOneEdit document) content

/-- Pairwise non-overlap of edits against one document snapshot: the offset
intervals of two distinct edits do not intersect and their start offsets
differ. -/
def NonOverlappingEdits (document : TextDocument) (edits : List TextEdit) : Prop :=
  edits.Pairwise fun a b =>
    (editEndOff document a ≤ editStartOff document b ∨
      editEndOff document b ≤ editStartOff document a) ∧
      editStartOff document a ≠ editStartOff document b

instance (document : TextDocument) (edits : List TextEdit) :
    Decidable (NonOverlappingEdits document edits) := by
  unfold NonOverlappingEdits; infer_instance

/-! Concrete inputs used by the closed instances of the theorems. -/

/-- A concrete file path. -/
def filePathT : String := "/t.css"

/-- The matching path relative to the working directory. -/
def relT : String := "t.css"

/-- The uri of the concrete file path. -/
def uriT : String := fileScheme ++ filePathT

/-- A zero-width range at the document start. -/
def range0 : LspRange :=
  { start := { line := 0, character := 0 }, stop := { line := 0, character := 0 } }

/-- A concrete diagnostic. -/
def d0 : Diagnostic :=
  { range := range0, severity := some 2, message := r"m", code := none, source := none }

/-- The serialized form of the concrete diagnostic. -/
def sd0 : SerializedDiagnostic :=
  { range := range0, severity := 2, message := r"m", code := none, source := none }

/-- A zero-width empty replacement: applying it leaves content unchanged. -/
def edit0 : TextEdit := { range := range0, newText := [] }

/-- A quickfix action carrying one edit for the concrete uri. -/
def advAction : CodeAction :=
  { kind := some quickfixKindStr, edit := some { changes := some [(uriT, [edit0])] } }

/-- An engine that always reports one diagnostic and always offers exactly
the one quickfix above: it never converges. -/
def advEngine : Engine :=
  { doValidate := fun _ => [d0], doCodeActions := fun _ _ => [advAction] }

/-- An engine whose validation always comes back clean. -/
def noDiagEngine : Engine :=
  { doValidate := fun _ => [], doCodeActions := fun _ _ => [advAction] }

/-- A quickfix action whose changes entry for the uri is present but empty. -/
def emptyChangesAction : CodeAction :=
  { kind := some quickfixKindStr, edit := some { changes := some [(uriT, [])] } }

/-- An engine always offering the empty-entry action. -/
def c4Engine : Engine :=
  { doValidate := fun _ => [d0], doCodeActions := fun _ _ => [emptyChangesAction] }

/-- A quickfix action with no edit payload at all. -/
def noEditAction : CodeAction := { kind := some quickfixKindStr, edit := none }

/-- An engine always offering the payload-free action. -/
def c4bEngine : Engine :=
  { doValidate := fun _ => [d0], doCodeActions := fun _ _ => [noEditAction] }

/-- A concrete empty document at the concrete uri. -/
def doc0 : TextDocument := TextDocument.create uriT (getLanguageId filePathT) 1 []

/-- An engine that flags the version-one document once and offers the
no-op quickfix, so the net effect restores the original string. -/
def c10Engine : Engine :=
  { doValidate := fun doc => if doc.version = 1 then [d0] else []
    doCodeActions := fun _ _ => [advAction] }

/-- A validation oracle matching c10Engine. -/
def c10Validate : TextDocument → Except String (List Diagnostic) :=
  fun doc => .ok (if doc.version = 1 then [d0] else [])

/-- A state that passes the defensive checks. -/
def okState : Option LintState :=
  some { v4 := true, designSystem := true, modulesTailwindcss := false }

/-- A message carrying a crash signature. -/
def crashMsg : String := "Cannot read stuff"

/-- A validation oracle that always throws the crash-signature message. -/
def crashValidate : TextDocument → Except String (List Diagnostic) :=
  fun _ => .error crashMsg

/-- A validation oracle that always succeeds with zero diagnostics. -/
def okValidate : TextDocument → Except String (List Diagnostic) := fun _ => .ok []

/-- Two-line concrete content. -/
def contentAB : List Char := "ab\ncd".data

/-- A concrete document over the two-line content. -/
def doc3 : TextDocument := TextDocument.create uriT (getLanguageId filePathT) 1 contentAB

/-- An edit replacing the first character of line zero. -/
def editA : TextEdit :=
  { range := { start := { line := 0, character := 0 }, stop := { line := 0, character := 1 } }
    newText := "YZ".data }

/-- An edit replacing the first character of line one. -/
def editB : TextEdit :=
  { range := { start := { line := 1, character := 0 }, stop := { line := 1, character := 1 } }
    newText := "X".data }

/-- Two non-overlapping edits given in ascending document order. -/
def edits3 : List TextEdit := [editA, editB]

/-! Lemmas: the line-offset table is strictly increasing and bounded by the
content length. -/

theorem computeLineOffsetsAux_bounds (text : List Char) (i : Nat) :
    ∀ x ∈ computeLineOffsetsAux text i, i < x ∧ x ≤ i + text.length := by
  induction text, i using computeLineOffsetsAux.induct with
  | case1 i => intro x hx; simp [computeLineOffsetsAux] at hx
  | case2 rest i ih =>
    intro x hx
    simp only [computeLineOffsetsAux, List.mem_cons] at hx
    rcases hx with rfl | hx
    · simp only [List.length_cons]; omega
    · have := ih x hx; simp only [List.length_cons]; omega
  | case3 rest i hne ih =>
    intro x hx
    simp only [computeLineOffsetsAux, List.mem_cons] at hx
    rcases hx with rfl | hx
    · simp only [List.length_cons]; omega
    · have := ih x hx; simp only [List.length_cons]; omega
  | case4 rest i ih =>
    intro x hx
    simp only [computeLineOffsetsAux, List.mem_cons] at hx
    rcases hx with rfl | hx
    · simp only [List.length_cons]; omega
    · have := ih x hx; simp only [List.length_cons]; omega
  | case5 c rest i h1 h2 h3 ih =>
    intro x hx
    simp only [computeLineOffsetsAux] at hx
    have := ih x hx; simp only [List.length_cons]; omega

theorem computeLineOffsetsAux_sorted (text : List Char) (i : Nat) :
    List.Sorted (· < ·) (computeLineOffsetsAux text i) := by
  induction text, i using computeLineOffsetsAux.induct with
  | case1 i => simp [computeLineOffsetsAux]
  | case2 rest i ih =>
    simp only [computeLineOffsetsAux, List.sorted_cons]
    exact ⟨fun b hb => (computeLineOffsetsAux_bounds rest (i + 2) b hb).1, ih⟩
  | case3 rest i hne ih =>
    simp only [computeLineOffsetsAux, List.sorted_cons]
    exact ⟨fun b hb => (computeLineOffsetsAux_bounds rest (i + 1) b hb).1, ih⟩
  | case4 rest i ih =>
    simp only [computeLineOffsetsAux, List.sorted_cons]
    exact ⟨fun b hb => (computeLineOffsetsAux_bounds rest (i + 1) b hb).1, ih⟩
  | case5 c rest i h1 h2 h3 ih =>
    simpa only [computeLineOffsetsAux] using ih

theorem computeLineOffsets_sorted (text : List Char) :
    List.Sorted (· < ·) (computeLineOffsets text) := by
  rw [computeLineOffsets, List.sorted_cons]
  exact ⟨fun b hb => (computeLineOffsetsAux_bounds text 0 b hb).1,
    computeLineOffsetsAux_sorted text 0⟩

theorem computeLineOffsets_le_length (text : List Char) :
    ∀ x ∈ computeLineOffsets text, x ≤ text.length := by
  intro x hx
  rw [computeLineOffsets, List.mem_cons] at hx
  rcases hx with rfl | hx
  · exact Nat.zero_le _
  · have := computeLineOffsetsAux_bounds text 0 x hx; omega

theorem lineOffsets_get_mono (text : List Char) {i j : Nat}
    (hi : i < (computeLineOffsets text).length) (hj : j < (computeLineOffsets text).length)
    (hij : i ≤ j) :
    (computeLineOffsets text).get ⟨i, hi⟩ ≤ (computeLineOffsets text).get ⟨j, hj⟩ := by
  rcases Nat.lt_or_ge i j with hlt | hge
  · exact Nat.le_of_lt ((computeLineOffsets_sorted text).rel_get_of_lt hlt)
  · have : i = j := Nat.le_antisymm hij hge
    subst this; exact Nat.le_refl _

theorem lineOffsets_get_le_length (text : List Char) {i : Nat}
    (hi : i < (computeLineOffsets text).length) :
    (computeLineOffsets text).get ⟨i, hi⟩ ≤ text.length :=
  computeLineOffsets_le_length text _ (List.get_mem _ _ hi)

theorem offsetAt_le_length (document : TextDocument) (p : Position) :
    document.offsetAt p ≤ document.content.length := by
  simp only [TextDocument.offsetAt]
  split
  · exact Nat.le_refl _
  next h =>
    have hls := lineOffsets_get_le_length document.content (Nat.lt_of_not_le h)
    split
    next h2 =>
      have hnls := lineOffsets_get_le_length document.content h2
      exact max_le (le_trans (min_le_right _ _) hnls) hls
    next h2 =>
      exact max_le (min_le_right _ _) hls

theorem offsetAt_mono (document : TextDocument) {p q : Position}
    (h : p.line < q.line ∨ (p.line = q.line ∧ p.character ≤ q.character)) :
    document.offsetAt p ≤ document.offsetAt q := by
  obtain ⟨pl, pc⟩ := p
  obtain ⟨ql, qc⟩ := q
  simp only at h
  have hple : pl ≤ ql := by omega
  simp only [TextDocument.offsetAt]
  by_cases hp : (computeLineOffsets document.content).length ≤ pl
  · rw [dif_pos hp, dif_pos (le_trans hp hple)]
  · rw [dif_neg hp]
    by_cases hq : (computeLineOffsets document.content).length ≤ ql
    · rw [dif_pos hq]
      have hls := lineOffsets_get_le_length document.content (Nat.lt_of_not_le hp)
      by_cases h2 : pl + 1 < (computeLineOffsets document.content).length
      · rw [dif_pos h2]
        have hnls := lineOffsets_get_le_length document.content h2
        exact max_le (le_trans (min_le_right _ _) hnls) hls
      · rw [dif_neg h2]
        exact max_le (min_le_right _ _) hls
    · rw [dif_neg hq]
      rcases h with hlt | ⟨heq, hch⟩
      · have hp1lt : pl + 1 < (computeLineOffsets document.content).length :=
          Nat.lt_of_le_of_lt hlt (Nat.lt_of_not_le hq)
        rw [dif_pos hp1lt]
        have h1 : (computeLineOffsets document.content).get ⟨pl + 1, hp1lt⟩ ≤
            (computeLineOffsets document.content).get ⟨ql, Nat.lt_of_not_le hq⟩ :=
          lineOffsets_get_mono document.content hp1lt (Nat.lt_of_not_le hq) hlt
        have h2 : (computeLineOffsets document.content).get ⟨pl, Nat.lt_of_not_le hp⟩ ≤
            (computeLineOffsets document.content).get ⟨pl + 1, hp1lt⟩ :=
          lineOffsets_get_mono document.content (Nat.lt_of_not_le hp) hp1lt (Nat.le_succ _)
        refine le_trans (max_le (le_trans (min_le_right _ _) h1) (le_trans h2 h1)) ?_
        exact le_max_right _ _
      · subst heq
        exact max_le_max (min_le_min (Nat.add_le_add_left hch _) (Nat.le_refl _)) (Nat.le_refl _)

/-! Lemmas: the descending comparator agrees with descending start offsets. -/

theorem editBefore_off_le (document : TextDocument) {a b : TextEdit} (h : editBefore a b) :
    editStartOff document b ≤ editStartOff document a :=
  offsetAt_mono document h

theorem selectMaxOffset_cons_none {document : TextDocument} {e : TextEdit}
    {rest : List TextEdit} (h : selectMaxOffset document rest = none) :
    selectMaxOffset document (e :: rest) = some (e, rest) := by
  simp only [selectMaxOffset, h]

theorem selectMaxOffset_cons_lt {document : TextDocument} {e m : TextEdit}
    {rest others : List TextEdit} (h : selectMaxOffset document rest = some (m, others))
    (hlt : editStartOff document e < editStartOff document m) :
    selectMaxOffset document (e :: rest) = some (m, e :: others) := by
  simp only [selectMaxOffset, h, if_pos hlt]

theorem selectMaxOffset_cons_ge {document : TextDocument} {e m : TextEdit}
    {rest others : List TextEdit} (h : selectMaxOffset document rest = some (m, others))
    (hge : ¬editStartOff document e < editStartOff document m) :
    selectMaxOffset document (e :: rest) = some (e, rest) := by
  simp only [selectMaxOffset, h, if_neg hge]

theorem selectMaxOffset_eq_none {document : TextDocument} {l : List TextEdit} :
    selectMaxOffset document l = none ↔ l = [] := by
  cases l with
  | nil => simp [selectMaxOffset]
  | cons e rest =>
    simp only [List.cons_ne_nil, iff_false]
    cases hrec : selectMaxOffset document rest with
    | none => rw [selectMaxOffset_cons_none hrec]; simp
    | some mr =>
      obtain ⟨m, others⟩ := mr
      by_cases hlt : editStartOff document e < editStartOff document m
      · rw [selectMaxOffset_cons_lt hrec hlt]; simp
      · rw [selectMaxOffset_cons_ge hrec hlt]; simp

theorem selectMaxOffset_perm {document : TextDocument} :
    ∀ {l : List TextEdit} {m : TextEdit} {r : List TextEdit},
      selectMaxOffset document l = some (m, r) → l.Perm (m :: r) := by
  intro l
  induction l with
  | nil => intro m r h; simp [selectMaxOffset] at h
  | cons e rest ih =>
    intro m r h
    cases hrec : selectMaxOffset document rest with
    | none =>
      rw [selectMaxOffset_cons_none hrec] at h
      simp only [Option.some.injEq, Prod.mk.injEq] at h
      obtain ⟨rfl, rfl⟩ := h
      exact List.Perm.refl _
    | some mr =>
      obtain ⟨mm, others⟩ := mr
      by_cases hlt : editStartOff document e < editStartOff document mm
      · rw [selectMaxOffset_cons_lt hrec hlt] at h
        simp only [Option.some.injEq, Prod.mk.injEq] at h
        obtain ⟨rfl, rfl⟩ := h
        exact ((ih hrec).cons e).trans (List.Perm.swap mm e others)
      · rw [selectMaxOffset_cons_ge hrec hlt] at h
        simp only [Option.some.injEq, Prod.mk.injEq] at h
        obtain ⟨rfl, rfl⟩ := h
        exact List.Perm.refl _

theorem selectMaxOffset_max {document : TextDocument} :
    ∀ {l : List TextEdit} {m : TextEdit} {r : List TextEdit},
      selectMaxOffset document l = some (m, r) →
      ∀ x ∈ r, editStartOff document x ≤ editStartOff document m := by
  intro l
  induction l with
  | nil => intro m r h; simp [selectMaxOffset] at h
  | cons e rest ih =>
    intro m r h
    cases hrec : selectMaxOffset document rest with
    | none =>
      rw [selectMaxOffset_cons_none hrec] at h
      simp only [Option.some.injEq, Prod.mk.injEq] at h
      obtain ⟨rfl, rfl⟩ := h
      have : rest = [] := selectMaxOffset_eq_none.mp hrec
      subst this
      intro x hx
      simp at hx
    | some mr =>
      obtain ⟨mm, others⟩ := mr
      by_cases hlt : editStartOff document e < editStartOff document mm
      · rw [selectMaxOffset_cons_lt hrec hlt] at h
        simp only [Option.some.injEq, Prod.mk.injEq] at h
        obtain ⟨rfl, rfl⟩ := h
        intro x hx
        rcases List.mem_cons.mp hx with rfl | hx
        · exact Nat.le_of_lt hlt
        · exact ih hrec x hx
      · rw [selectMaxOffset_cons_ge hrec hlt] at h
        simp only [Option.some.injEq, Prod.mk.injEq] at h
        obtain ⟨rfl, rfl⟩ := h
        intro x hx
        have hx2 : x ∈ mm :: others := ((selectMaxOffset_perm hrec).mem_iff).mp hx
        rcases List.mem_cons.mp hx2 with rfl | hx2
        · exact Nat.le_of_not_lt hlt
        · exact le_trans (ih hrec x hx2) (Nat.le_of_not_lt hlt)

theorem backwardOrder_perm (document : TextDocument) :
    ∀ (n : Nat) (l : List TextEdit), l.length ≤ n → (backwardOrder document n l).Perm l := by
  intro n
  induction n with
  | zero =>
    intro l h
    have : l = [] := List.eq_nil_of_length_eq_zero (Nat.le_zero.mp h)
    subst this
    simp [backwardOrder]
  | succ n ih =>
    intro l h
    cases hsel : selectMaxOffset document l with
    | none =>
      have : l = [] := selectMaxOffset_eq_none.mp hsel
      subst this
      simp [backwardOrder, hsel]
    | some mr =>
      obtain ⟨m, r⟩ := mr
      have hlen : (m :: r).length = l.length := (selectMaxOffset_perm hsel).symm.length_eq
      simp only [List.length_cons] at hlen
      have ihr := ih r (by omega)
      simp only [backwardOrder, hsel]
      exact (ihr.cons m).trans (selectMaxOffset_perm hsel).symm

theorem backwardOrder_sorted (document : TextDocument) :
    ∀ (n : Nat) (l : List TextEdit), l.length ≤ n →
      List.Sorted (fun a b => editStartOff document b ≤ editStartOff document a)
        (backwardOrder document n l) := by
  intro n
  induction n with
  | zero => intro l h; simp [backwardOrder]
  | succ n ih =>
    intro l h
    cases hsel : selectMaxOffset document l with
    | none => simp [backwardOrder, hsel]
    | some mr =>
      obtain ⟨m, r⟩ := mr
      have hlen : (m :: r).length = l.length := (selectMaxOffset_perm hsel).symm.length_eq
      simp only [List.length_cons] at hlen
      have hr : r.length ≤ n := by omega
      simp only [backwardOrder, hsel]
      rw [List.sorted_cons]
      constructor
      · intro b hb
        have : b ∈ r := ((backwardOrder_perm document n r hr).mem_iff).mp hb
        exact selectMaxOffset_max hsel b this
      · exact ih r hr

theorem insertionSort_eq_backwardOrder (document : TextDocument) (edits : List TextEdit)
    (hno : NonOverlappingEdits document edits) :
    List.insertionSort editBefore edits = backwardOrder document edits.length edits := by
  have hperm : (List.insertionSort editBefore edits).Perm
      (backwardOrder document edits.length edits) :=
    (List.perm_insertionSort editBefore edits).trans
      (backwardOrder_perm document edits.length edits (Nat.le_refl _)).symm
  have hne : edits.Pairwise
      (fun a b => editStartOff document a ≠ editStartOff document b) := by
    unfold NonOverlappingEdits at hno
    exact hno.imp (fun h => h.2)
  have hs1 : List.Sorted editBefore (List.insertionSort editBefore edits) :=
    List.sorted_insertionSort editBefore edits
  have hne1 : (List.insertionSort editBefore edits).Pairwise
      (fun a b => editStartOff document a ≠ editStartOff document b) :=
    (List.perm_insertionSort editBefore edits).symm.pairwise hne (fun h => h.symm)
  have hgt1 : (List.insertionSort editBefore edits).Pairwise
      (fun a b => editStartOff document b < editStartOff document a) :=
    (List.Pairwise.and hs1 hne1).imp
      (fun hab => lt_of_le_of_ne (editBefore_off_le document hab.1) (Ne.symm hab.2))
  have hs2 := backwardOrder_sorted document edits.length edits (Nat.le_refl _)
  have hne2 : (backwardOrder document edits.length edits).Pairwise
      (fun a b => editStartOff document a ≠ editStartOff document b) :=
    (backwardOrder_perm document edits.length edits (Nat.le_refl _)).symm.pairwise hne
      (fun h => h.symm)
  have hgt2 : (backwardOrder document edits.length edits).Pairwise
      (fun a b => editStartOff document b < editStartOff document a) :=
    (List.Pairwise.and hs2 hne2).imp
      (fun hab => lt_of_le_of_ne hab.1 (Ne.symm hab.2))
  haveI : IsAntisymm TextEdit (fun a b => editStartOff document b < editStartOff document a) :=
    ⟨fun _ _ h1 h2 => absurd h2 (Nat.lt_asymm h1)⟩
  exact List.eq_of_perm_of_sorted hperm hgt1 hgt2

/-! Lemmas about the fix loop. -/

theorem fixLoop_step (engine : Engine) (uri languageId : String) (fuel : Nat)
    (doc : TextDocument) (content : List Char) (tf it v c : Nat) :
    fixLoopAux engine uri languageId (fuel + 1) doc content tf it v c =
      match engine.doValidate doc,
          (getQuickfixes engine doc uri (engine.doValidate doc)).head? with
      | [], _ => ⟨doc, content, tf, it, v + 1, c⟩
      | _ :: _, none => ⟨doc, content, tf, it, v + 1, c + 1⟩
      | _ :: _, some action =>
        match applyFirstQuickfix action uri doc content with
        | none => ⟨doc, content, tf, it, v + 1, c + 1⟩
        | some newContent =>
          fixLoopAux engine uri languageId fuel
            (TextDocument.create uri languageId (doc.version + 1) newContent) newContent
            (tf + 1) (it + 1) (v + 1) (c + 1) := by
  cases hval : engine.doValidate doc with
  | nil => simp [fixLoopAux, hval]
  | cons d ds =>
    simp only [fixLoopAux, hval]
    cases hq : getQuickfixes engine doc uri (d :: ds) with
    | nil => simp
    | cons a qs => simp

theorem fixLoop_version (engine : Engine) (uri languageId : String) :
    ∀ (fuel : Nat) (doc : TextDocument) (content : List Char) (tf it v c : Nat),
      (fixLoopAux engine uri languageId fuel doc content tf it v c).document.version + tf =
        doc.version + (fixLoopAux engine uri languageId fuel doc content tf it v c).totalFixed
      ∧ tf ≤ (fixLoopAux engine uri languageId fuel doc content tf it v c).totalFixed
      ∧ (fixLoopAux engine uri languageId fuel doc content tf it v c).totalFixed + it =
        (fixLoopAux engine uri languageId fuel doc content tf it v c).iteration + tf
      ∧ it ≤ (fixLoopAux engine uri languageId fuel doc content tf it v c).iteration := by
  intro fuel
  induction fuel with
  | zero => intro doc content tf it v c; simp [fixLoopAux, Nat.add_comm]
  | succ n ih =>
    intro doc content tf it v c
    cases hval : engine.doValidate doc with
    | nil => simp [fixLoopAux, hval, Nat.add_comm]
    | cons d ds =>
      simp only [fixLoopAux, hval]
      cases hq : getQuickfixes engine doc uri (d :: ds) with
      | nil => simp [Nat.add_comm]
      | cons a qs =>
        cases hap : applyFirstQuickfix a uri doc content with
        | none => simp [hap, Nat.add_comm]
        | some nc =>
          simp only [hap]
          obtain ⟨h1, h2, h3, h4⟩ :=
            ih (TextDocument.create uri languageId (doc.version + 1) nc) nc
              (tf + 1) (it + 1) (v + 1) (c + 1)
          simp only [TextDocument.create] at h1 h2 h3 h4 ⊢
          refine ⟨?_, ?_, ?_, ?_⟩ <;> omega

theorem isQuickfixKind_iff (action : CodeAction) :
    isQuickfixKind action = true ↔
      (action.kind = some quickfixKindStr ∨
        ∃ k, action.kind = some k ∧ k.startsWith quickfixDotStr = true) := by
  cases hk : action.kind with
  | none => simp [isQuickfixKind, hk]
  | some k =>
    simp only [isQuickfixKind, hk, Bool.or_eq_true, beq_iff_eq, Option.some.injEq]
    constructor
    · rintro (rfl | hs)
      · exact Or.inl rfl
      · exact Or.inr ⟨k, rfl, hs⟩
    · rintro (rfl | ⟨k2, hk2, hs⟩)
      · exact Or.inl rfl
      · cases hk2; exact Or.inr hs

theorem fixLoop_adversarial (engine : Engine) (uri languageId : String)
    (hv : ∀ doc, engine.doValidate doc ≠ [])
    (hc : ∀ params doc, ∃ a, engine.doCodeActions params doc = [a] ∧
      isQuickfixKind a = true ∧ lookupChanges a uri ≠ none) :
    ∀ (fuel : Nat) (doc : TextDocument) (content : List Char) (tf it v c : Nat),
      (fixLoopAux engine uri languageId fuel doc content tf it v c).totalFixed = tf + fuel
      ∧ (fixLoopAux engine uri languageId fuel doc content tf it v c).iteration = it + fuel
      ∧ (fixLoopAux engine uri languageId fuel doc content tf it v c).validateCalls =
        v + fuel := by
  intro fuel
  induction fuel with
  | zero => intro doc content tf it v c; simp [fixLoopAux]
  | succ n ih =>
    intro doc content tf it v c
    cases hval : engine.doValidate doc with
    | nil => exact absurd hval (hv doc)
    | cons d ds =>
      obtain ⟨a, ha, hk, hch⟩ := hc (codeActionParamsFor doc uri (d :: ds)) doc
      have hq : getQuickfixes engine doc uri (d :: ds) = [a] := by
        unfold getQuickfixes
        rw [ha]
        simp [List.filter_cons, hk]
      cases hlc : lookupChanges a uri with
      | none => exact absurd hlc hch
      | some edits =>
        have hap : applyFirstQuickfix a uri doc content =
            some (applyEditsToContent doc edits content) := by
          unfold applyFirstQuickfix
          rw [hlc]
        simp only [fixLoopAux, hval, hq, hap]
        obtain ⟨i1, i2, i3⟩ :=
          ih (TextDocument.create uri languageId (doc.version + 1)
            (applyEditsToContent doc edits content))
            (applyEditsToContent doc edits content) (tf + 1) (it + 1) (v + 1) (c + 1)
        refine ⟨?_, ?_, ?_⟩ <;> omega

/-! The claims. -/

/-- C1: for an adversarial engine that on every validation returns
diagnostics and on every code-action request returns exactly one quickfix
carrying edits for the document uri, applyCodeActions executes exactly
MAX_FIX_ITERATIONS iterations then stops, performs one more validation pass
at the bound (the validate-call count is the bound plus one and the bound
warning fires), and returns maxIterationsReached set true and fixedCount
equal to MAX_FIX_ITERATIONS. -/
theorem applyCodeActions_adversarial_bound (engine : Engine) (filePath : String)
    (content : List Char) (diagnostics : List SerializedDiagnostic)
    (hd : diagnostics ≠ [])
    (hv : ∀ doc, engine.doValidate doc ≠ [])
    (hc : ∀ params doc, ∃ a, engine.doCodeActions params doc = [a] ∧
      isQuickfixKind a = true ∧ lookupChanges a (fileScheme ++ filePath) ≠ none) :
    (applyCodeActions engine filePath content diagnostics).1.fixedCount = MAX_FIX_ITERATIONS
    ∧ (applyCodeActions engine filePath content diagnostics).1.maxIterationsReached = some true
    ∧ (applyCodeActions engine filePath content diagnostics).2.iterations = MAX_FIX_ITERATIONS
    ∧ (applyCodeActions engine filePath content diagnostics).2.validateCalls =
      MAX_FIX_ITERATIONS + 1
    ∧ (applyCodeActions engine filePath content diagnostics).2.warned = true := by
  cases diagnostics with
  | nil => exact absurd rfl hd
  | cons sd sds =>
    obtain ⟨l1, l2, l3⟩ := fixLoop_adversarial engine (fileScheme ++ filePath)
      (getLanguageId filePath) hv hc MAX_FIX_ITERATIONS
      (TextDocument.create (fileScheme ++ filePath) (getLanguageId filePath) 1 content)
      content 0 0 0 0
    cases hrem : engine.doValidate
        (fixLoopAux engine (fileScheme ++ filePath) (getLanguageId filePath)
          MAX_FIX_ITERATIONS
          (TextDocument.create (fileScheme ++ filePath) (getLanguageId filePath) 1 content)
          content 0 0 0 0).document with
    | nil => exact absurd hrem (hv _)
    | cons r rs => simp [applyCodeActions, l1, l2, l3, hrem]

/-- Closed instance of C1 at the concrete adversarial engine. -/
theorem applyCodeActions_adversarial_bound_witness :
    (applyCodeActions advEngine filePathT [] [sd0]).1.fixedCount = MAX_FIX_ITERATIONS
    ∧ (applyCodeActions advEngine filePathT [] [sd0]).1.maxIterationsReached = some true
    ∧ (applyCodeActions advEngine filePathT [] [sd0]).2.iterations = MAX_FIX_ITERATIONS
    ∧ (applyCodeActions advEngine filePathT [] [sd0]).2.validateCalls =
      MAX_FIX_ITERATIONS + 1
    ∧ (applyCodeActions advEngine filePathT [] [sd0]).2.warned = true :=
  applyCodeActions_adversarial_bound advEngine filePathT [] [sd0]
    (by simp)
    (fun _ => by simp [advEngine])
    (fun _ _ => ⟨advAction, rfl, by decide, by decide⟩)

/-- C2: when the caller-supplied diagnostics list is empty, or the first
internal re-validation of the fresh version-one document comes back empty,
applyCodeActions returns the original content unchanged with changed false
and fixedCount zero, and the code-action oracle is never invoked. -/
theorem applyCodeActions_clean_short_circuit (engine : Engine) (filePath : String)
    (content : List Char) (diagnostics : List SerializedDiagnostic)
    (h : diagnostics = [] ∨
      engine.doValidate
        (TextDocument.create (fileScheme ++ filePath) (getLanguageId filePath) 1 content) =
        []) :
    (applyCodeActions engine filePath content diagnostics).1.content = content
    ∧ (applyCodeActions engine filePath content diagnostics).1.changed = false
    ∧ (applyCodeActions engine filePath content diagnostics).1.fixedCount = 0
    ∧ (applyCodeActions engine filePath content diagnostics).2.codeActionCalls = 0 := by
  cases diagnostics with
  | nil => exact ⟨rfl, rfl, rfl, rfl⟩
  | cons sd sds =>
    rcases h with h | hval
    · exact absurd h (List.cons_ne_nil sd sds)
    · have hstep : fixLoopAux engine (fileScheme ++ filePath) (getLanguageId filePath)
          MAX_FIX_ITERATIONS
          (TextDocument.create (fileScheme ++ filePath) (getLanguageId filePath) 1 content)
          content 0 0 0 0 =
          ⟨TextDocument.create (fileScheme ++ filePath) (getLanguageId filePath) 1 content,
            content, 0, 0, 1, 0⟩ := by
        have hm : MAX_FIX_ITERATIONS = 9 + 1 := rfl
        rw [hm]
        simp [fixLoopAux, hval]
      have hcond : ¬(0 = MAX_FIX_ITERATIONS) := by decide
      simp [applyCodeActions, hstep, hcond]

/-- Closed instance of C2 at a clean engine with a nonempty initial list. -/
theorem applyCodeActions_clean_short_circuit_witness :
    (applyCodeActions noDiagEngine filePathT [] [sd0]).1.content = []
    ∧ (applyCodeActions noDiagEngine filePathT [] [sd0]).1.changed = false
    ∧ (applyCodeActions noDiagEngine filePathT [] [sd0]).1.fixedCount = 0
    ∧ (applyCodeActions noDiagEngine filePathT [] [sd0]).2.codeActionCalls = 0 :=
  applyCodeActions_clean_short_circuit noDiagEngine filePathT [] [sd0] (Or.inr rfl)

/-- C3: for pairwise non-overlapping edits against one fixed document
snapshot, applying them as the text-edit applier does (sorted descending by
start line then start character, each spliced at offsets computed against
the fixed original snapshot) produces the same string as applying them one
at a time from the end of the document backward. -/
theorem applyEdits_desc_eq_backward (document : TextDocument) (edits : List TextEdit)
    (content : List Char) (hno : NonOverlappingEdits document edits) :
    applyEditsToContent document edits content = specBackwardApply document edits content := by
  unfold applyEditsToContent specBackwardApply
  rw [insertionSort_eq_backwardOrder document edits hno]

/-- Closed instance of C3 at two concrete non-overlapping edits. -/
theorem applyEdits_desc_eq_backward_witness :
    NonOverlappingEdits doc3 edits3
    ∧ applyEditsToContent doc3 edits3 contentAB = specBackwardApply doc3 edits3 contentAB :=
  ⟨by decide, applyEdits_desc_eq_backward doc3 edits3 contentAB (by decide)⟩

/-- C4 counterexample: a quickfix action whose changes entry for the uri is
present but empty yields no edits for the uri, yet applyFirstQuickfix does
not return null, and the loop run against it does not stop: fixedCount
reaches the bound and ten new document versions are created. -/
theorem applyFirstQuickfix_empty_entry_cex :
    yieldedEdits emptyChangesAction uriT = []
    ∧ applyFirstQuickfix emptyChangesAction uriT doc0 [] = some []
    ∧ (applyCodeActions c4Engine filePathT [] [sd0]).1.fixedCount = MAX_FIX_ITERATIONS
    ∧ (applyCodeActions c4Engine filePathT [] [sd0]).2.finalVersion =
      MAX_FIX_ITERATIONS + 1 := by
  refine ⟨by decide, by decide, by decide, by decide⟩

/-- C4 amended: applyFirstQuickfix returns null exactly when the action has
no changes entry for the document uri (edit payload absent, changes map
absent, or no entry under the uri); in that case the loop stops without
incrementing fixedCount, without touching the document (so no new version),
and without advancing the iteration counter. An action carrying a present
but empty entry is instead applied as zero edits and counted as a fix. -/
theorem applyFirstQuickfix_noop_iff_missing_entry (action : CodeAction) (uri : String)
    (document : TextDocument) (content : List Char) :
    (applyFirstQuickfix action uri document content = none ↔
      lookupChanges action uri = none)
    ∧ ∀ (engine : Engine) (languageId : String) (fuel : Nat) (doc : TextDocument)
        (c0 : List Char) (tf it v cc : Nat),
        engine.doValidate doc ≠ [] →
        (getQuickfixes engine doc uri (engine.doValidate doc)).head? = some action →
        applyFirstQuickfix action uri doc c0 = none →
        fixLoopAux engine uri languageId (fuel + 1) doc c0 tf it v cc =
          ⟨doc, c0, tf, it, v + 1, cc + 1⟩ := by
  constructor
  · cases hlc : lookupChanges action uri with
    | none => simp [applyFirstQuickfix, hlc]
    | some edits => simp [applyFirstQuickfix, hlc]
  · intro engine languageId fuel doc c0 tf it v cc hval hhead hap
    cases hv : engine.doValidate doc with
    | nil => exact absurd hv hval
    | cons d ds =>
      rw [hv] at hhead
      cases hq : getQuickfixes engine doc uri (d :: ds) with
      | nil => rw [hq] at hhead; simp at hhead
      | cons a qs =>
        rw [hq] at hhead
        simp only [List.head?] at hhead
        cases hhead
        simp [fixLoopAux, hv, hq, hap]

/-- C5: the quickfix selector returns exactly the engine-supplied actions
whose kind is the quickfix tag or starts with the dotted quickfix marker,
in the engine order with no reordering and no deduplication (an order-
preserving sublist whose member counts match the filter), and each loop
step consumes the element at index zero of that filtered list. -/
theorem getQuickfixes_filter_order_first (engine : Engine) (document : TextDocument)
    (uri : String) (diagnostics : List Diagnostic) :
    (getQuickfixes engine document uri diagnostics).Sublist
      (engine.doCodeActions (codeActionParamsFor document uri diagnostics) document)
    ∧ (∀ a, a ∈ getQuickfixes engine document uri diagnostics ↔
        (a ∈ engine.doCodeActions (codeActionParamsFor document uri diagnostics) document ∧
          (a.kind = some quickfixKindStr ∨
            ∃ k, a.kind = some k ∧ k.startsWith quickfixDotStr = true)))
    ∧ (∀ a, (getQuickfixes engine document uri diagnostics).count a =
        if isQuickfixKind a then
          (engine.doCodeActions (codeActionParamsFor document uri diagnostics) document).count
            a
        else 0)
    ∧ (∀ (languageId : String) (fuel : Nat) (doc : TextDocument) (content : List Char)
        (tf it v c : Nat),
        fixLoopAux engine uri languageId (fuel + 1) doc content tf it v c =
          match engine.doValidate doc,
              (getQuickfixes engine doc uri (engine.doValidate doc)).head? with
          | [], _ => ⟨doc, content, tf, it, v + 1, c⟩
          | _ :: _, none => ⟨doc, content, tf, it, v + 1, c + 1⟩
          | _ :: _, some action =>
            match applyFirstQuickfix action uri doc content with
            | none => ⟨doc, content, tf, it, v + 1, c + 1⟩
            | some newContent =>
              fixLoopAux engine uri languageId fuel
                (TextDocument.create uri languageId (doc.version + 1) newContent) newContent
                (tf + 1) (it + 1) (v + 1) (c + 1)) := by
  refine ⟨List.filter_sublist _, ?_, ?_, ?_⟩
  · intro a
    unfold getQuickfixes
    rw [List.mem_filter, isQuickfixKind_iff]
  · intro a
    unfold getQuickfixes
    by_cases hk : isQuickfixKind a
    · rw [if_pos hk]
      exact List.count_filter hk
    · rw [if_neg hk]
      refine List.count_eq_zero.mpr ?_
      intro hmem
      exact hk ((List.mem_filter.mp hmem).2)
  · intro languageId fuel doc content tf it v c
    exact fixLoop_step engine uri languageId fuel doc content tf it v c

/-- C6: every code-action request built by the quickfix selector starts at
line zero character zero and ends at the position one line count past the
content lines with character zero, which clamps to the very end of the
document (it covers every position, so the range runs through the end of
the final line); its diagnostic context is exactly the current diagnostics
with each absent source replaced by the tailwindcss tag. -/
theorem codeActionParams_full_range_context (document : TextDocument) (uri : String)
    (diagnostics : List Diagnostic) :
    (codeActionParamsFor document uri diagnostics).range.start =
      { line := 0, character := 0 }
    ∧ (codeActionParamsFor document uri diagnostics).range.stop =
      { line := document.lineCount, character := 0 }
    ∧ document.offsetAt (codeActionParamsFor document uri diagnostics).range.stop =
      document.content.length
    ∧ (∀ q : Position, document.offsetAt q ≤
        document.offsetAt (codeActionParamsFor document uri diagnostics).range.stop)
    ∧ (codeActionParamsFor document uri diagnostics).contextDiagnostics =
      diagnostics.map (fun diag =>
        { range := diag.range, severity := diag.severity, message := diag.message,
          code := diag.code, source := some (jsOrString diag.source tailwindcssTag) })
    ∧ (∀ diag ∈ diagnostics, diag.source = none →
        ({ range := diag.range
           severity := diag.severity
           message := diag.message
           code := diag.code
           source := some tailwindcssTag } : Diagnostic) ∈
          (codeActionParamsFor document uri diagnostics).contextDiagnostics) := by
  have hstop : document.offsetAt { line := document.lineCount, character := 0 } =
      document.content.length := by
    unfold TextDocument.offsetAt TextDocument.lineCount
    rw [dif_pos (Nat.le_refl _)]
  refine ⟨rfl, rfl, hstop, ?_, rfl, ?_⟩
  · intro q
    rw [show (codeActionParamsFor document uri diagnostics).range.stop =
      { line := document.lineCount, character := 0 } from rfl, hstop]
    exact offsetAt_le_length document q
  · intro diag hmem hsrc
    refine List.mem_map.mpr ⟨diag, hmem, ?_⟩
    simp [hsrc, jsOrString]

/-- C7: across every run of the convergence loop the document version is
strictly increasing: the loop starts at version one and every applied fix
builds a new document at the previous version plus one, so the version of
the last document is one plus fixedCount, fixedCount never exceeds the
iterations executed, and from any loop state the version grows by exactly
the number of fixes applied. -/
theorem document_version_strictly_increasing (engine : Engine) (filePath : String)
    (content : List Char) (diagnostics : List SerializedDiagnostic) :
    (applyCodeActions engine filePath content diagnostics).2.finalVersion =
      1 + (applyCodeActions engine filePath content diagnostics).1.fixedCount
    ∧ (applyCodeActions engine filePath content diagnostics).1.fixedCount ≤
      (applyCodeActions engine filePath content diagnostics).2.iterations
    ∧ (∀ (languageId : String) (fuel : Nat) (doc : TextDocument) (c0 : List Char)
        (tf it v cc : Nat),
        (fixLoopAux engine (fileScheme ++ filePath) languageId fuel doc c0 tf it v
            cc).document.version + tf =
          doc.version +
            (fixLoopAux engine (fileScheme ++ filePath) languageId fuel doc c0 tf it v
              cc).totalFixed
        ∧ tf ≤ (fixLoopAux engine (fileScheme ++ filePath) languageId fuel doc c0 tf it v
            cc).totalFixed) := by
  refine ⟨?_, ?_, ?_⟩
  · cases diagnostics with
    | nil => rfl
    | cons sd sds =>
      obtain ⟨h1, h2, h3, h4⟩ := fixLoop_version engine (fileScheme ++ filePath)
        (getLanguageId filePath) MAX_FIX_ITERATIONS
        (TextDocument.create (fileScheme ++ filePath) (getLanguageId filePath) 1 content)
        content 0 0 0 0
      rw [show (TextDocument.create (fileScheme ++ filePath) (getLanguageId filePath) 1
        content).version = 1 from rfl] at h1
      by_cases hb : (fixLoopAux engine (fileScheme ++ filePath) (getLanguageId filePath)
          MAX_FIX_ITERATIONS
          (TextDocument.create (fileScheme ++ filePath) (getLanguageId filePath) 1 content)
          content 0 0 0 0).iteration = MAX_FIX_ITERATIONS
      · simp only [applyCodeActions, hb, if_pos]
        omega
      · simp only [applyCodeActions, if_neg hb]
        omega
  · cases diagnostics with
    | nil => exact Nat.le_refl 0
    | cons sd sds =>
      obtain ⟨h1, h2, h3, h4⟩ := fixLoop_version engine (fileScheme ++ filePath)
        (getLanguageId filePath) MAX_FIX_ITERATIONS
        (TextDocument.create (fileScheme ++ filePath) (getLanguageId filePath) 1 content)
        content 0 0 0 0
      by_cases hb : (fixLoopAux engine (fileScheme ++ filePath) (getLanguageId filePath)
          MAX_FIX_ITERATIONS
          (TextDocument.create (fileScheme ++ filePath) (getLanguageId filePath) 1 content)
          content 0 0 0 0).iteration = MAX_FIX_ITERATIONS
      · simp only [applyCodeActions, hb, if_pos]
        omega
      · simp only [applyCodeActions, if_neg hb]
        omega
  · intro languageId fuel doc c0 tf it v cc
    obtain ⟨h1, h2, h3, h4⟩ := fixLoop_version engine (fileScheme ++ filePath) languageId
      fuel doc c0 tf it v cc
    exact ⟨h1, h2⟩

/-- C8: when the try body of validateDocument throws, a message carrying a
crash signature (the Cannot-read or undefined substring) is caught, a
warning is flagged and the file is treated as having zero diagnostics, so
per-file processing continues; any other message is re-raised wrapped with
the file path, and per-file processing propagates it, aborting the batch. -/
theorem validateDocument_crash_vs_fatal
    (validate : TextDocument → Except String (List Diagnostic)) (state : Option LintState)
    (filePath : String) (content : List Char) (m : String)
    (hm : validateDocumentBody validate state filePath content = .error m) :
    (crashSignature m = true →
      validateDocument validate state filePath content = .ok ([], true))
    ∧ (crashSignature m = false →
      validateDocument validate state filePath content =
        .error (failedValidateMsg ++ filePath ++ colonSep ++ m))
    ∧ (crashSignature m = true → ∀ (engine : Engine) (relPath : String) (fix : Bool),
        processFile validate engine state filePath relPath fix (some content) =
          ⟨.ok (some ⟨relPath, [], false, 0⟩), [], 1⟩)
    ∧ (crashSignature m = false → ∀ (engine : Engine) (relPath : String) (fix : Bool),
        processFile validate engine state filePath relPath fix (some content) =
          ⟨.error (failedValidateMsg ++ filePath ++ colonSep ++ m), [], 1⟩) := by
  have hdoc : validateDocument validate state filePath content =
      (if crashSignature m then .ok ([], true)
       else .error (failedValidateMsg ++ filePath ++ colonSep ++ m)) := by
    unfold validateDocument
    rw [hm]
  refine ⟨?_, ?_, ?_, ?_⟩
  · intro hc
    rw [hdoc, if_pos hc]
  · intro hc
    rw [hdoc, hc]
    simp
  · intro hc engine relPath fix
    simp [processFile, hdoc, hc]
  · intro hc engine relPath fix
    simp [processFile, hdoc, hc]

/-- Closed instance of C8 at a crashing validation oracle. -/
theorem validateDocument_crash_vs_fatal_witness :
    validateDocumentBody crashValidate okState filePathT [] = .error crashMsg
    ∧ validateDocument crashValidate okState filePathT [] = .ok ([], true) :=
  ⟨rfl,
    (validateDocument_crash_vs_fatal crashValidate okState filePathT [] crashMsg
      rfl).1 (by decide)⟩

/-- The changed flag of applyCodeActions is the disequality of the final
and original content. -/
theorem applyCodeActions_changed_iff (engine : Engine) (filePath : String)
    (content : List Char) (diagnostics : List SerializedDiagnostic) :
    (applyCodeActions engine filePath content diagnostics).1.changed = true ↔
      (applyCodeActions engine filePath content diagnostics).1.content ≠ content := by
  cases diagnostics with
  | nil => simp [applyCodeActions]
  | cons sd sds =>
    simp only [applyCodeActions]
    split
    · simp [bne_iff_ne]
    · simp [bne_iff_ne]

/-- C9: per processed file the disk is written at most once, and only after
the convergence loop has finished with a changed result; with fix off, with
zero initial diagnostics, or when the loop returns the original content,
nothing is ever written. -/
theorem processFile_single_write_guard
    (validate : TextDocument → Except String (List Diagnostic)) (engine : Engine)
    (state : Option LintState) (absolutePath relPath : String) (fix : Bool)
    (fileOnDisk : Option (List Char)) :
    (processFile validate engine state absolutePath relPath fix fileOnDisk).writes.length ≤ 1
    ∧ (fix = false →
        (processFile validate engine state absolutePath relPath fix fileOnDisk).writes = [])
    ∧ (∀ dc w, fileOnDisk = some dc →
        validateDocument validate state absolutePath dc = .ok ([], w) →
        (processFile validate engine state absolutePath relPath fix fileOnDisk).writes = [])
    ∧ (∀ dc diagnostics w, fileOnDisk = some dc →
        validateDocument validate state absolutePath dc = .ok (diagnostics, w) →
        (applyCodeActions engine absolutePath dc diagnostics).1.content = dc →
        (processFile validate engine state absolutePath relPath fix fileOnDisk).writes = [])
    ∧ (∀ w ∈ (processFile validate engine state absolutePath relPath fix
          fileOnDisk).writes,
        fix = true ∧ ∃ dc diagnostics wd, fileOnDisk = some dc ∧
          validateDocument validate state absolutePath dc = .ok (diagnostics, wd) ∧
          diagnostics ≠ [] ∧
          (applyCodeActions engine absolutePath dc diagnostics).1.changed = true ∧
          w = (absolutePath, (applyCodeActions engine absolutePath dc diagnostics).1.content)) := by
  cases hdisk : fileOnDisk with
  | none =>
    refine ⟨by simp [processFile], by simp [processFile], ?_, ?_, ?_⟩
    · intro dc w h; cases h
    · intro dc diagnostics w h; cases h
    · intro w hw; simp [processFile] at hw
  | some dc =>
    cases hval : validateDocument validate state absolutePath dc with
    | error m =>
      refine ⟨?_, ?_, ?_, ?_, ?_⟩ <;>
        simp [processFile, hval]
    | ok pr =>
      obtain ⟨diagnostics, warned⟩ := pr
      cases hfix : fix with
      | false =>
        refine ⟨?_, ?_, ?_, ?_, ?_⟩ <;>
          simp [processFile, hval]
      | true =>
        cases hdg : diagnostics with
        | nil =>
          subst hdg
          refine ⟨?_, ?_, ?_, ?_, ?_⟩ <;>
            simp [processFile, hval]
        | cons d0h ds =>
          subst hdg
          cases hch : (applyCodeActions engine absolutePath dc (d0h :: ds)).1.changed with
          | false =>
            refine ⟨?_, ?_, ?_, ?_, ?_⟩ <;>
              simp [processFile, hval, hch]
          | true =>
            have hwr : (processFile validate engine state absolutePath relPath true
                (some dc)).writes =
                [(absolutePath, (applyCodeActions engine absolutePath dc (d0h :: ds)).1.content)] := by
              cases hval2 : validateDocument validate state absolutePath
                  (applyCodeActions engine absolutePath dc (d0h :: ds)).1.content with
              | error m => simp [processFile, hval, hch, hval2]
              | ok pr2 => simp [processFile, hval, hch, hval2]
            refine ⟨?_, ?_, ?_, ?_, ?_⟩
            · rw [hwr]; exact Nat.le_refl 1
            · intro hf; cases hf
            · intro dc2 w2 hsome hv2
              cases hsome
              rw [hval] at hv2
              cases hv2
            · intro dc2 diagnostics2 w2 hsome hv2 hco
              cases hsome
              rw [hval] at hv2
              cases hv2
              exact absurd hco
                ((applyCodeActions_changed_iff engine absolutePath dc (d0h :: ds)).mp hch)
            · intro w hw
              rw [hwr] at hw
              simp at hw
              exact ⟨rfl, dc, d0h :: ds, warned, rfl, hval, List.cons_ne_nil _ _, hch, hw⟩

/-- C10: the changed flag is true exactly when the final content differs
from the original input; at a concrete engine whose one no-op quickfix
restores the original string, the result carries changed false with
fixedCount one, and the batch runner then reports the file unfixed with
fixedCount zero, writes nothing to disk, and skips the post-fix
re-validation (only one validation-wrapper call). -/
theorem changed_iff_content_differs :
    (∀ (engine : Engine) (filePath : String) (content : List Char)
      (diagnostics : List SerializedDiagnostic),
      (applyCodeActions engine filePath content diagnostics).1.changed = true ↔
        (applyCodeActions engine filePath content diagnostics).1.content ≠ content)
    ∧ (applyCodeActions c10Engine filePathT [] [sd0]).1.fixedCount = 1
    ∧ (applyCodeActions c10Engine filePathT [] [sd0]).1.changed = false
    ∧ (processFile c10Validate c10Engine okState filePathT relT true (some [])).result =
      .ok (some { path := relT, diagnostics := [sd0], fixed := false, fixedCount := 0 })
    ∧ (processFile c10Validate c10Engine okState filePathT relT true (some [])).writes = []
    ∧ (processFile c10Validate c10Engine okState filePathT relT true
        (some [])).validateDocCalls = 1 := by
  refine ⟨applyCodeActions_changed_iff, by decide, by decide, rfl, rfl, rfl⟩
